import Mathlib

/-!
Verification of the Blockstack `scripts.py` naming/pricing core.

Strings are modelled as `List Char`. Python's `str.split(sep)` for a
one-character separator is embedded as `pySplit`, Python's negative list
indexing as `pyIndex`, and Python floating/exact arithmetic over `ℚ`.
Externals from `config.py`, `b40.py` and `schemas.py` (the `is_b40`
alphabet test, the `LENGTHS` table, cost-unit constants, the epoch price
multiplier, the test-mode flag, the first mainnet block) are supplied as
explicit configuration records, matching the spec's declaration that they
are consumed as opaque tables/functions.
-/

namespace Blockstack

abbrev Chars := List Char

/-- Embedding of Python `s.split(sep)` for a single-character separator:
splits on every occurrence of `sep`, keeping empty pieces, so the result
always has `count sep + 1` parts. -/
def pySplit (sep : Char) : Chars → List Chars
  | [] => [[]]
  | c :: rest =>
    if c = sep then [] :: pySplit sep rest
    else
      match pySplit sep rest with
      | [] => [[c]]
      | h :: t => (c :: h) :: t

/-- Interleave `sep` between the pieces; left inverse of `pySplit`. -/
def joinSep (sep : Char) : List Chars → Chars
  | [] => []
  | [x] => x
  | x :: y :: t => x ++ sep :: joinSep sep (y :: t)

/-- External collaborators of the grammar validator: the b40 alphabet
test from `b40.py` and the two length limits from the `LENGTHS` table of
`schemas.py`, neither of which is part of this core. -/
structure ScriptsConfig where
  is_b40 : Chars → Bool
  blockchain_id_name : Nat
  blockchain_id_namespace_id : Nat

/-- Embedding of `is_namespace_valid` from `scripts.py`. -/
def is_namespace_valid (cfg : ScriptsConfig) (namespace_id : Chars) : Bool :=
  if !cfg.is_b40 namespace_id || namespace_id.contains '+'
      || namespace_id.count '.' > 0 then
    false
  else if namespace_id.length = 0
      || namespace_id.length > cfg.blockchain_id_namespace_id then
    false
  else
    true

/-- Checks of `is_name_valid` performed after `fqn.split(".")` has been
destructured into the name and namespace halves. -/
def is_name_valid_body (cfg : ScriptsConfig) (fqn name namespace_id : Chars) : Bool :=
  if name.length = 0 || namespace_id.length = 0 then false
  else if !cfg.is_b40 name || name.contains '+' || name.contains '.' then false
  else if !is_namespace_valid cfg namespace_id then false
  else if fqn.length > cfg.blockchain_id_name then false
  else true

/-- Embedding of `is_name_valid` from `scripts.py`.  The Python code
destructures `fqn.split(".")` into exactly two variables; that pattern is
only reached when the dot count is 1, so the catch-all branch is
unreachable. -/
def is_name_valid (cfg : ScriptsConfig) (fqn : Chars) : Bool :=
  if fqn.count '.' ≠ 1 then false
  else
    match pySplit '.' fqn with
    | [name, namespace_id] => is_name_valid_body cfg fqn name namespace_id
    | _ => false

/-- Embedding of `get_namespace_from_name`: everything after the last dot
(`split(".")[-1]`), or the empty string when there is no dot. -/
def get_namespace_from_name (name : Chars) : Chars :=
  if '.' ∉ name then []
  else (pySplit '.' name).getLastD []

/-- Embedding of `get_name_from_fq_name`: everything before the first dot
(`split(".")[0]`), or no value when there is no dot. -/
def get_name_from_fq_name (name : Chars) : Option Chars :=
  if '.' ∉ name then none
  else some ((pySplit '.' name).headD [])

/-- Embedding of Python negative list indexing `l[i]` for `i : ℤ`
(out-of-range reads default to `0`; in the embedded code every read is
in range). -/
def pyIndex (l : List ℤ) (i : ℤ) : ℤ :=
  if 0 ≤ i then l.getD i.toNat 0
  else l.getD (l.length - (-i).toNat) 0

/-- The settlement-unit tag computed by `price_name` (`'STACKS'` or
`'BTC'` in the Python source). -/
inductive PriceUnits where
  | BTC : PriceUnits
  | STACKS : PriceUnits
deriving DecidableEq

/-- Namespace parameter record as read by `price_name`. -/
structure NamespaceParams where
  version : ℤ
  base : ℤ
  coeff : ℤ
  buckets : List ℤ
  no_vowel_discount : ℚ
  nonalpha_discount : ℚ
  namespace_id : Chars

/-- External collaborators of the pricing engine: the two cost-unit
constants and the version tag from `config.py`, and the epoch price
multiplier lookup, all declared external interfaces by the spec. -/
structure PricingConfig where
  NAMESPACE_VERSION_PAY_WITH_STACKS : ℤ
  NAME_COST_UNIT : ℚ
  NAME_COST_UNIT_STACKS : ℚ
  get_epoch_price_multiplier : ℤ → Chars → PriceUnits → ℚ

/-- Unit tag selected by `price_name` from the namespace version. -/
def name_units (cfg : PricingConfig) (ns : NamespaceParams) : PriceUnits :=
  if ns.version = cfg.NAMESPACE_VERSION_PAY_WITH_STACKS then PriceUnits.STACKS
  else PriceUnits.BTC

/-- Cost unit selected by `price_name` from the namespace version. -/
def name_cost_unit (cfg : PricingConfig) (ns : NamespaceParams) : ℚ :=
  if ns.version = cfg.NAMESPACE_VERSION_PAY_WITH_STACKS then cfg.NAME_COST_UNIT_STACKS
  else cfg.NAME_COST_UNIT

/-- Bucket-exponent selection of `price_name`: `buckets[len(name)-1]`
when `len(name) < len(buckets)` (Python indexing, so an empty name reads
`buckets[-1]`), else `buckets[-1]`. -/
def price_name_bucket_exponent (buckets : List ℤ) (name : Chars) : ℤ :=
  if name.length < buckets.length then
    pyIndex buckets ((name.length : ℤ) - 1)
  else
    buckets.getLastD 0

/-- Embedding of Python `str.lower()` on the ASCII names at hand. -/
def pyLower (s : Chars) : Chars := s.map Char.toLower

/-- The vowel list scanned by the no-vowel discount check. -/
def VOWELS : Chars := ['a', 'e', 'i', 'o', 'u', 'y']

/-- The digit/dash/underscore list scanned by the non-alpha discount
check. -/
def NONALPHA : Chars :=
  ['0', '1', '2', '3', '4', '5', '6', '7', '8', '9', '-', '_']

/-- Total count of vowel occurrences in the lower-cased name, as summed
by `price_name`. -/
def countVowels (name : Chars) : Nat :=
  (VOWELS.map (fun v => (pyLower name).count v)).sum

/-- Total count of digit/dash/underscore occurrences in the lower-cased
name, as summed by `price_name`. -/
def countNonAlpha (name : Chars) : Nat :=
  (NONALPHA.map (fun v => (pyLower name).count v)).sum

/-- Discount computation of `price_name`: start at `1.0`, raise by `max`
for the no-vowel rule, then raise by `max` for the non-alpha rule. -/
def name_discount (ns : NamespaceParams) (name : Chars) : ℚ :=
  let discount : ℚ := 1
  let discount :=
    if countVowels name = 0 then max discount ns.no_vowel_discount else discount
  let discount :=
    if 0 < countNonAlpha name then max discount ns.nonalpha_discount else discount
  discount

/-- Embedding of `price_name` from `scripts.py` over exact rational
arithmetic: select the cost unit from the namespace version, pick the
bucket exponent, compute the discount, evaluate
`(coeff * base ** bucket_exponent / discount) * cost_unit`, floor the
result at the cost unit, and scale by the epoch price multiplier. -/
def price_name (cfg : PricingConfig) (name : Chars) (ns : NamespaceParams)
    (block_height : ℤ) : ℚ :=
  let units := name_units cfg ns
  let cost_unit := name_cost_unit cfg ns
  let bucket_exponent := price_name_bucket_exponent ns.buckets name
  let discount := name_discount ns name
  let price := (ns.coeff : ℚ) * (ns.base : ℚ) ^ bucket_exponent / discount * cost_unit
  let price := if price < cost_unit then cost_unit else price
  price * cfg.get_epoch_price_multiplier block_height ns.namespace_id units

/-- Embedding of `check_block` from `scripts.py`; `test` is the
`BLOCKSTACK_TEST` flag and `first_block_mainnet` the
`FIRST_BLOCK_MAINNET` constant, both from the external `config.py`. -/
def check_block (test : Bool) (first_block_mainnet : ℤ) (block_id : ℤ) : Bool :=
  if test then
    if block_id ≤ 0 then false
    else if block_id > 10000000 then false
    else true
  else
    if block_id < first_block_mainnet then false
    else if block_id > 10000000 then false
    else true

/-- Embedding of `check_offset` from `scripts.py`.  The bound test is
`if max_value and offset > max_value`, so a supplied bound of `0` is
falsy and the bound is skipped, exactly as in Python. -/
def check_offset (offset : ℤ) (max_value : Option ℤ) : Bool :=
  if offset < 0 then false
  else if (match max_value with
           | none => false
           | some m => decide (m ≠ 0) && decide (offset > m)) then false
  else true

/-- Embedding of `check_count` from `scripts.py`; same shape as
`check_offset`, including the Python truthiness test on `max_value`. -/
def check_count (count : ℤ) (max_value : Option ℤ) : Bool :=
  if count < 0 then false
  else if (match max_value with
           | none => false
           | some m => decide (m ≠ 0) && decide (count > m)) then false
  else true

/-- External collaborators of `get_public_key_hex_from_tx`: script
deserialization, public-key construction (`none` models the exception
path that is logged and skipped), and address derivation, all supplied by
the external chain library. -/
structure TxEnv (σ ε π α : Type) where
  btc_script_deserialize : σ → List ε
  bitcoin_public_key : ε → Option π
  pubkey_address : π → α

/-- Embedding of `get_public_key_hex_from_tx` from `scripts.py`: scan the
inputs in order; an input whose script deserializes to exactly two
elements offers element 1 as a public-key candidate; a failed key
construction is skipped; the first candidate whose derived address equals
the target is returned; otherwise the scan continues, ending in `none`. -/
def get_public_key_hex_from_tx {σ ε π α : Type} [DecidableEq α]
    (env : TxEnv σ ε π α) : List σ → α → Option ε
  | [], _ => none
  | inp :: rest, address =>
    match env.btc_script_deserialize inp with
    | [_sig, pubkey_candidate] =>
      match env.bitcoin_public_key pubkey_candidate with
      | none => get_public_key_hex_from_tx env rest address
      | some pubkey =>
        if address ≠ env.pubkey_address pubkey then
          get_public_key_hex_from_tx env rest address
        else
          some pubkey_candidate
    | _ => get_public_key_hex_from_tx env rest address

/-! Concrete instantiations used to witness the parametrized theorems. -/

/-- A concrete grammar configuration: the alphabet test accepts
everything, and the length limits are the historical 37/19. -/
def wScriptsCfg : ScriptsConfig where
  is_b40 := fun _ => true
  blockchain_id_name := 37
  blockchain_id_namespace_id := 19

/-- A concrete pricing configuration with unit multiplier. -/
def wPricingCfg : PricingConfig where
  NAMESPACE_VERSION_PAY_WITH_STACKS := 3
  NAME_COST_UNIT := 100
  NAME_COST_UNIT_STACKS := 1
  get_epoch_price_multiplier := fun _ _ _ => 1

/-- A concrete namespace parameter record. -/
def wNsParams : NamespaceParams where
  version := 1
  base := 4
  coeff := 250
  buckets := [6, 5, 4]
  no_vowel_discount := 2
  nonalpha_discount := 4
  namespace_id := ['i', 'd']

/-- A concrete transaction environment over `Nat`: input `7` is the one
two-element p2pkh script, its candidate key `5` derives address `6`. -/
def wTxEnv : TxEnv Nat Nat Nat Nat where
  btc_script_deserialize := fun n => if n = 7 then [0, 5] else [n]
  bitcoin_public_key := fun p => if p = 5 then some p else none
  pubkey_address := fun pk => pk + 1

/-! Basic facts about `pySplit`. -/

theorem pySplit_ne_nil (sep : Char) (s : Chars) : pySplit sep s ≠ [] := by
  induction s with
  | nil => simp [pySplit]
  | cons c rest ih =>
    simp only [pySplit]
    split
    · simp
    · split
      · simp
      · simp

theorem pySplit_of_not_mem (sep : Char) (s : Chars) (h : sep ∉ s) :
    pySplit sep s = [s] := by
  induction s with
  | nil => rfl
  | cons c rest ih =>
    simp only [List.mem_cons, not_or] at h
    simp only [pySplit]
    rw [if_neg (fun hc => h.1 hc.symm)]
    rw [ih h.2]

theorem joinSep_pySplit (sep : Char) (s : Chars) :
    joinSep sep (pySplit sep s) = s := by
  induction s with
  | nil => rfl
  | cons c rest ih =>
    simp only [pySplit]
    split
    · rename_i hc
      subst hc
      obtain ⟨h, t, hht⟩ := List.exists_cons_of_ne_nil (pySplit_ne_nil c rest)
      rw [hht] at ih ⊢
      simpa [joinSep] using ih
    · obtain ⟨h, t, hht⟩ := List.exists_cons_of_ne_nil (pySplit_ne_nil sep rest)
      rw [hht] at ih ⊢
      cases t with
      | nil => simpa [joinSep] using congrArg (c :: ·) ih
      | cons t1 t2 => simpa [joinSep] using congrArg (c :: ·) ih

theorem not_mem_of_mem_pySplit (sep : Char) (s : Chars) :
    ∀ part ∈ pySplit sep s, sep ∉ part := by
  induction s with
  | nil => simp [pySplit]
  | cons c rest ih =>
    intro part hp
    simp only [pySplit] at hp
    split at hp
    · rename_i hc
      rcases List.mem_cons.mp hp with h | h
      · simp [h]
      · exact ih part h
    · rename_i hc
      obtain ⟨h, t, hht⟩ := List.exists_cons_of_ne_nil (pySplit_ne_nil sep rest)
      rw [hht] at hp
      rcases List.mem_cons.mp hp with h1 | h1
      · subst h1
        intro hm
        rcases List.mem_cons.mp hm with h2 | h2
        · exact hc h2.symm
        · exact ih h (by simp [hht]) h2
      · exact ih part (by simp [hht, h1])

theorem pySplit_append_sep (sep : Char) (a b : Chars) (ha : sep ∉ a) :
    pySplit sep (a ++ sep :: b) = a :: pySplit sep b := by
  induction a with
  | nil => simp [pySplit]
  | cons c a0 ih =>
    simp only [List.mem_cons, not_or] at ha
    simp only [List.cons_append, pySplit]
    rw [if_neg (fun hc => ha.1 hc.symm)]
    simp only [List.append_eq]
    rw [ih ha.2]

theorem pySplit_eq_pair_iff (sep : Char) (s a b : Chars) :
    pySplit sep s = [a, b] ↔ s = a ++ sep :: b ∧ sep ∉ a ∧ sep ∉ b := by
  constructor
  · intro h
    refine ⟨?_, ?_, ?_⟩
    · have := joinSep_pySplit sep s
      rw [h] at this
      simpa [joinSep] using this.symm
    · exact not_mem_of_mem_pySplit sep s a (by simp [h])
    · exact not_mem_of_mem_pySplit sep s b (by simp [h])
  · rintro ⟨rfl, ha, hb⟩
    rw [pySplit_append_sep sep a b ha, pySplit_of_not_mem sep b hb]

theorem count_eq_one_of_decomp (sep : Char) (a b : Chars)
    (ha : sep ∉ a) (hb : sep ∉ b) :
    (a ++ sep :: b).count sep = 1 := by
  rw [List.count_append, List.count_cons]
  rw [List.count_eq_zero.mpr ha, List.count_eq_zero.mpr hb]
  simp

theorem not_mem_of_pySplit_singleton (sep : Char) (s x : Chars)
    (h : pySplit sep s = [x]) : sep ∉ s := by
  have hj := joinSep_pySplit sep s
  rw [h] at hj
  simp only [joinSep] at hj
  rw [← hj]
  exact not_mem_of_mem_pySplit sep s x (by simp [h])

theorem pySplit_headD_decomp (sep : Char) (s : Chars) (h : sep ∈ s) :
    ∃ v, s = (pySplit sep s).headD [] ++ sep :: v
      ∧ sep ∉ (pySplit sep s).headD [] := by
  induction s with
  | nil => cases h
  | cons c rest ih =>
    by_cases hc : c = sep
    · subst hc
      simp only [pySplit, if_pos rfl]
      exact ⟨rest, by simp, by simp⟩
    · have hr : sep ∈ rest := by
        rcases List.mem_cons.mp h with h1 | h1
        · exact absurd h1.symm hc
        · exact h1
      obtain ⟨v, hv, hnotin⟩ := ih hr
      simp only [pySplit, if_neg hc]
      obtain ⟨hd, tl, hht⟩ := List.exists_cons_of_ne_nil (pySplit_ne_nil sep rest)
      rw [hht] at hv hnotin ⊢
      simp only [List.headD_cons] at hv hnotin ⊢
      refine ⟨v, ?_, ?_⟩
      · rw [List.cons_append, ← hv]
      · intro hm
        rcases List.mem_cons.mp hm with h1 | h1
        · exact hc h1.symm
        · exact hnotin h1

theorem pySplit_getLastD_decomp (sep : Char) (s : Chars) (h : sep ∈ s) :
    ∃ u, s = u ++ sep :: (pySplit sep s).getLastD []
      ∧ sep ∉ (pySplit sep s).getLastD [] := by
  induction s with
  | nil => cases h
  | cons c rest ih =>
    by_cases hc : c = sep
    · subst hc
      have heq : pySplit c (c :: rest) = [] :: pySplit c rest := by
        simp [pySplit]
      rw [heq]
      by_cases hr : c ∈ rest
      · obtain ⟨u, hu, hnotin⟩ := ih hr
        obtain ⟨hd, tl, hht⟩ := List.exists_cons_of_ne_nil (pySplit_ne_nil c rest)
        rw [hht] at hu hnotin ⊢
        rw [List.getLastD_cons]
        exact ⟨c :: u, by rw [List.cons_append, ← hu], hnotin⟩
      · rw [pySplit_of_not_mem c rest hr]
        exact ⟨[], by simp, hr⟩
    · have hr : sep ∈ rest := by
        rcases List.mem_cons.mp h with h1 | h1
        · exact absurd h1.symm hc
        · exact h1
      obtain ⟨u, hu, hnotin⟩ := ih hr
      simp only [pySplit, if_neg hc]
      obtain ⟨hd, tl, hht⟩ := List.exists_cons_of_ne_nil (pySplit_ne_nil sep rest)
      rw [hht]
      cases tl with
      | nil => exact absurd hr (not_mem_of_pySplit_singleton sep rest hd hht)
      | cons t1 t2 =>
        rw [hht] at hu hnotin
        rw [List.getLastD_cons, List.getLastD_cons] at hu hnotin ⊢
        exact ⟨c :: u, by rw [List.cons_append, ← hu], hnotin⟩

theorem getLastD_eq_getD_length_sub_one (l : List ℤ) :
    l.getLastD 0 = l.getD (l.length - 1) 0 := by
  rw [List.getLastD_eq_getLast?, List.getLast?_eq_getElem?,
    List.getD_eq_getElem?_getD]

theorem contains_eq_true_iff (l : Chars) (c : Char) :
    l.contains c = true ↔ c ∈ l := List.elem_iff

theorem contains_eq_false_iff (l : Chars) (c : Char) :
    l.contains c = false ↔ c ∉ l := by
  rw [Bool.eq_false_iff]
  exact not_congr (contains_eq_true_iff l c)

theorem is_name_valid_parts (cfg : ScriptsConfig) (s : Chars)
    (h : is_name_valid cfg s = true) :
    ∃ name namespace_id, pySplit '.' s = [name, namespace_id]
      ∧ s = name ++ '.' :: namespace_id
      ∧ '.' ∉ name ∧ '.' ∉ namespace_id := by
  unfold is_name_valid at h
  by_cases hcount : s.count '.' ≠ 1
  · rw [if_pos hcount] at h
    simp at h
  · rw [if_neg hcount] at h
    cases hsp : pySplit '.' s with
    | nil => rw [hsp] at h; simp at h
    | cons a t =>
      cases t with
      | nil => rw [hsp] at h; simp at h
      | cons b t2 =>
        cases t2 with
        | nil =>
          obtain ⟨hdecomp, ha, hb⟩ := (pySplit_eq_pair_iff '.' s a b).mp hsp
          exact ⟨a, b, rfl, hdecomp, ha, hb⟩
        | cons x t3 => rw [hsp] at h; simp at h

/-- C5: `is_name_valid(s)` holds exactly when `s` splits as
`name ++ "." ++ namespace_id` with no further dot on either side, both
halves non-empty, the name half in the b40 alphabet and free of `+`, the
namespace half accepted by `is_namespace_valid`, and the whole string no
longer than the configured maximum name length. -/
theorem is_name_valid_iff (cfg : ScriptsConfig) (s : Chars) :
    is_name_valid cfg s = true ↔
      ∃ name namespace_id,
        s = name ++ '.' :: namespace_id
        ∧ '.' ∉ name ∧ '.' ∉ namespace_id
        ∧ name ≠ [] ∧ namespace_id ≠ []
        ∧ cfg.is_b40 name = true ∧ '+' ∉ name
        ∧ is_namespace_valid cfg namespace_id = true
        ∧ s.length ≤ cfg.blockchain_id_name := by
  constructor
  · intro h
    obtain ⟨a, b, hsp, hdecomp, ha, hb⟩ := is_name_valid_parts cfg s h
    have hcount : s.count '.' = 1 := by
      rw [hdecomp]
      exact count_eq_one_of_decomp '.' a b ha hb
    unfold is_name_valid at h
    rw [if_neg (by simp [hcount]), hsp] at h
    have h2 : is_name_valid_body cfg s a b = true := h
    unfold is_name_valid_body at h2
    cases hc1 : (decide (a.length = 0) || decide (b.length = 0)) with
    | true => rw [hc1] at h2; simp at h2
    | false =>
    rw [hc1, if_neg (by simp)] at h2
    simp only [Bool.or_eq_false_iff, decide_eq_false_iff_not] at hc1
    cases hc2 : (!cfg.is_b40 a || a.contains '+' || a.contains '.') with
    | true => rw [hc2] at h2; simp at h2
    | false =>
    rw [hc2, if_neg (by simp)] at h2
    simp only [Bool.or_eq_false_iff, Bool.not_eq_false',
      contains_eq_false_iff] at hc2
    cases hc3 : (!is_namespace_valid cfg b) with
    | true => rw [hc3] at h2; simp at h2
    | false =>
    rw [hc3, if_neg (by simp)] at h2
    simp only [Bool.not_eq_false'] at hc3
    by_cases hc4 : s.length > cfg.blockchain_id_name
    · rw [if_pos hc4] at h2; simp at h2
    · exact ⟨a, b, hdecomp, ha, hb,
        fun hn => hc1.1 (by simp [hn]),
        fun hn => hc1.2 (by simp [hn]),
        hc2.1.1, hc2.1.2, hc3, by omega⟩
  · rintro ⟨a, b, rfl, ha, hb, hane, hbne, hb40, hplus, hns, hlen⟩
    have hcount : (a ++ '.' :: b).count '.' = 1 :=
      count_eq_one_of_decomp '.' a b ha hb
    have hsp : pySplit '.' (a ++ '.' :: b) = [a, b] :=
      (pySplit_eq_pair_iff '.' (a ++ '.' :: b) a b).mpr ⟨rfl, ha, hb⟩
    unfold is_name_valid
    rw [if_neg (by simp [hcount]), hsp]
    show is_name_valid_body cfg (a ++ '.' :: b) a b = true
    unfold is_name_valid_body
    rw [if_neg (by
      simp only [Bool.or_eq_true, decide_eq_true_eq, List.length_eq_zero]
      rintro (hx | hx)
      · exact hane hx
      · exact hbne hx)]
    rw [if_neg (by
      simp only [Bool.or_eq_true, Bool.not_eq_true', contains_eq_true_iff]
      rintro ((hx | hx) | hx)
      · rw [hb40] at hx; simp at hx
      · exact hplus hx
      · exact ha hx)]
    rw [if_neg (by simp [hns])]
    rw [if_neg (by simp only [decide_eq_true_eq, not_lt]; omega)]

/-- C9: for a string containing a dot, `get_namespace_from_name` returns
the dot-free suffix after the last dot and `get_name_from_fq_name` the
dot-free piece before the first dot; without a dot the former returns the
empty string and the latter no value. -/
theorem get_parts_spec (s : Chars) :
    (('.' ∈ s) →
       ((∃ u, s = u ++ '.' :: get_namespace_from_name s
           ∧ '.' ∉ get_namespace_from_name s)
        ∧ (∃ n v, get_name_from_fq_name s = some n
           ∧ s = n ++ '.' :: v ∧ '.' ∉ n)))
    ∧ (('.' ∉ s) →
       get_namespace_from_name s = [] ∧ get_name_from_fq_name s = none) := by
  constructor
  · intro h
    constructor
    · unfold get_namespace_from_name
      rw [if_neg (not_not_intro h)]
      exact pySplit_getLastD_decomp '.' s h
    · unfold get_name_from_fq_name
      rw [if_neg (not_not_intro h)]
      obtain ⟨v, hv, hn⟩ := pySplit_headD_decomp '.' s h
      exact ⟨_, v, rfl, hv, hn⟩
  · intro h
    unfold get_namespace_from_name get_name_from_fq_name
    rw [if_pos h, if_pos h]
    exact ⟨rfl, rfl⟩

/-- Witness for C9 at the concrete input `"a.b.c"`: the namespace is the
piece after the last dot and the name the piece before the first dot. -/
theorem get_parts_spec_witness :
    (∃ u, (['a', '.', 'b', '.', 'c'] : Chars)
        = u ++ '.' :: get_namespace_from_name ['a', '.', 'b', '.', 'c']
        ∧ '.' ∉ get_namespace_from_name ['a', '.', 'b', '.', 'c'])
    ∧ (∃ n v, get_name_from_fq_name ['a', '.', 'b', '.', 'c'] = some n
        ∧ (['a', '.', 'b', '.', 'c'] : Chars) = n ++ '.' :: v ∧ '.' ∉ n) :=
  (get_parts_spec ['a', '.', 'b', '.', 'c']).1 (by decide)

/-- C10: a string accepted by `is_name_valid` is reconstructed exactly by
concatenating its name part, a dot, and its namespace part. -/
theorem fq_name_roundtrip (cfg : ScriptsConfig) (fqn : Chars)
    (h : is_name_valid cfg fqn = true) :
    ∃ n, get_name_from_fq_name fqn = some n
      ∧ n ++ '.' :: get_namespace_from_name fqn = fqn := by
  obtain ⟨a, b, hsp, hdecomp, ha, hb⟩ := is_name_valid_parts cfg fqn h
  have hmem : '.' ∈ fqn := by rw [hdecomp]; simp
  refine ⟨a, ?_, ?_⟩
  · unfold get_name_from_fq_name
    rw [if_neg (not_not_intro hmem), hsp]
    rfl
  · unfold get_namespace_from_name
    rw [if_neg (not_not_intro hmem), hsp]
    rw [show ([a, b] : List Chars).getLastD [] = b from rfl]
    exact hdecomp.symm

/-- Witness for C10 at the valid name `"a.b"` under a permissive
configuration. -/
theorem fq_name_roundtrip_witness :
    ∃ n, get_name_from_fq_name ['a', '.', 'b'] = some n
      ∧ n ++ '.' :: get_namespace_from_name ['a', '.', 'b'] = ['a', '.', 'b'] :=
  fq_name_roundtrip wScriptsCfg ['a', '.', 'b'] (by decide)

theorem sum_counts_eq_zero_iff (chars name : Chars) :
    (chars.map (fun v => (pyLower name).count v)).sum = 0 ↔
      ∀ c ∈ name, Char.toLower c ∉ chars := by
  rw [List.sum_eq_zero_iff]
  constructor
  · intro hz c hc hv
    have h0 := hz ((pyLower name).count (Char.toLower c))
      (List.mem_map.mpr ⟨Char.toLower c, hv, rfl⟩)
    rw [List.count_eq_zero] at h0
    exact h0 (List.mem_map.mpr ⟨c, hc, rfl⟩)
  · intro hall x hx
    obtain ⟨v, hv, rfl⟩ := List.mem_map.mp hx
    rw [List.count_eq_zero]
    intro hmem
    obtain ⟨c, hc, rfl⟩ := List.mem_map.mp hmem
    exact hall c hc hv

/-- C2: in `price_name`, the no-vowel condition is that the case-folded
name has no vowel among a, e, i, o, u, y and the non-alpha condition that
it has a digit, dash, or underscore; starting from `1.0`, each applicable
rule raises the discount by `max` to at least its factor, when both apply
the larger factor wins (the factors are never multiplied), and when
neither applies the discount stays `1.0`. -/
theorem price_name_discount_spec (ns : NamespaceParams) (name : Chars)
    (h1 : 1 ≤ ns.no_vowel_discount) (h2 : 1 ≤ ns.nonalpha_discount) :
    (countVowels name = 0 ↔ ∀ c ∈ name, Char.toLower c ∉ VOWELS)
    ∧ (0 < countNonAlpha name ↔ ∃ c ∈ name, Char.toLower c ∈ NONALPHA)
    ∧ (countVowels name = 0 → ns.no_vowel_discount ≤ name_discount ns name)
    ∧ (0 < countNonAlpha name → ns.nonalpha_discount ≤ name_discount ns name)
    ∧ (countVowels name = 0 → 0 < countNonAlpha name →
        name_discount ns name = max ns.no_vowel_discount ns.nonalpha_discount)
    ∧ (countVowels name ≠ 0 → countNonAlpha name = 0 →
        name_discount ns name = 1) := by
  refine ⟨sum_counts_eq_zero_iff VOWELS name, ?_, ?_, ?_, ?_, ?_⟩
  · rw [Nat.pos_iff_ne_zero]
    constructor
    · intro hne
      by_contra hnex
      push_neg at hnex
      exact hne ((sum_counts_eq_zero_iff NONALPHA name).mpr hnex)
    · rintro ⟨c, hc, hin⟩ h0
      exact (sum_counts_eq_zero_iff NONALPHA name).mp h0 c hc hin
  · intro hv
    simp only [name_discount]
    by_cases hn : 0 < countNonAlpha name
    · rw [if_pos hn, if_pos hv]
      exact le_trans (le_max_right 1 _) (le_max_left _ _)
    · rw [if_neg hn, if_pos hv]
      exact le_max_right 1 _
  · intro hn
    simp only [name_discount]
    rw [if_pos hn]
    exact le_max_right _ _
  · intro hv hn
    simp only [name_discount]
    rw [if_pos hn, if_pos hv, max_eq_right h1]
  · intro hv hn
    simp only [name_discount]
    rw [if_neg (by omega), if_neg hv]

/-- Witness for C2 at the name `"b-b"` (no vowels, one dash): the
final discount is the larger of the two factors. -/
theorem price_name_discount_spec_witness :
    countVowels ['b', '-', 'b'] = 0
    ∧ 0 < countNonAlpha ['b', '-', 'b']
    ∧ name_discount wNsParams ['b', '-', 'b']
        = max wNsParams.no_vowel_discount wNsParams.nonalpha_discount :=
  ⟨by decide, by decide,
    (price_name_discount_spec wNsParams ['b', '-', 'b']
      (by decide) (by decide)).2.2.2.2.1 (by decide) (by decide)⟩

/-- C3: the bucket exponent of `price_name` is `buckets[len(name)-1]`
while that index is in range (the boundary case `len(name) = len(buckets)`
reads the last entry, which is the same value) and the last bucket entry
for longer names; a one-character name reads the first entry. -/
theorem price_name_bucket_exponent_spec (buckets : List ℤ) (name : Chars)
    (h1 : 1 ≤ name.length) (hb : buckets ≠ []) :
    (name.length ≤ buckets.length →
        price_name_bucket_exponent buckets name
          = buckets.getD (name.length - 1) 0)
    ∧ (buckets.length < name.length →
        price_name_bucket_exponent buckets name = buckets.getLastD 0)
    ∧ (name.length = 1 →
        price_name_bucket_exponent buckets name = buckets.headD 0) := by
  unfold price_name_bucket_exponent
  refine ⟨?_, ?_, ?_⟩
  · intro hle
    by_cases hlt : name.length < buckets.length
    · rw [if_pos hlt]
      unfold pyIndex
      rw [if_pos (by omega)]
      congr 1
      omega
    · rw [if_neg hlt]
      rw [getLastD_eq_getD_length_sub_one]
      congr 1
      omega
  · intro hlt
    rw [if_neg (by omega)]
  · intro hone
    cases buckets with
    | nil => exact absurd rfl hb
    | cons x t =>
      cases t with
      | nil =>
        rw [if_neg (by simp [hone])]
        rfl
      | cons y t2 =>
        rw [if_pos (by simp [hone, Nat.lt_add_of_pos_right])]
        unfold pyIndex
        rw [if_pos (by omega), hone]
        rfl

/-- Witness for C3: with three buckets, a two-character name reads the
second bucket entry. -/
theorem price_name_bucket_exponent_spec_witness :
    price_name_bucket_exponent [6, 5, 4] ['x', 'y'] = 5 := by
  rw [(price_name_bucket_exponent_spec [6, 5, 4] ['x', 'y']
    (by decide) (by decide)).1 (by decide)]
  rfl

/-- C4: whatever the name, namespace parameters, and block height, the
pre-multiplier price of `price_name` is floored at the version-selected
cost unit, so the returned value is at least the cost unit times the
epoch price multiplier (the multiplier being nonnegative). -/
theorem price_name_floor_spec (cfg : PricingConfig) (ns : NamespaceParams)
    (name : Chars) (block_height : ℤ)
    (hm : 0 ≤ cfg.get_epoch_price_multiplier block_height ns.namespace_id
        (name_units cfg ns)) :
    name_cost_unit cfg ns
        * cfg.get_epoch_price_multiplier block_height ns.namespace_id
            (name_units cfg ns)
      ≤ price_name cfg name ns block_height := by
  simp only [price_name]
  apply mul_le_mul_of_nonneg_right _ hm
  split
  · exact le_rfl
  · rename_i hnl
    exact le_of_not_lt hnl

/-- Witness for C4 at a concrete configuration, namespace, name, and
height. -/
theorem price_name_floor_spec_witness :
    name_cost_unit wPricingCfg wNsParams
        * wPricingCfg.get_epoch_price_multiplier 500 wNsParams.namespace_id
            (name_units wPricingCfg wNsParams)
      ≤ price_name wPricingCfg ['x'] wNsParams 500 :=
  price_name_floor_spec wPricingCfg wNsParams ['x'] 500 (by decide)

/-- C6 counterexample: the claim says `check_block(0)` is true under test
mode, but the code rejects any `block_id ≤ 0` in test mode and returns
false. -/
theorem check_block_zero_test_counterexample :
    check_block true 373601 0 = false := rfl

/-- C6 (amended): `check_block(0)` is false in both modes (test mode
demands a strictly positive block and mainnet mode a block at least the
first mainnet block, itself positive), and `check_block(10000001)` is
false in both modes. -/
theorem check_block_spec (first_block_mainnet : ℤ)
    (hfb : 0 < first_block_mainnet) :
    check_block true first_block_mainnet 0 = false
    ∧ check_block false first_block_mainnet 0 = false
    ∧ check_block true first_block_mainnet 10000001 = false
    ∧ check_block false first_block_mainnet 10000001 = false := by
  refine ⟨rfl, ?_, rfl, ?_⟩
  · unfold check_block
    rw [if_neg (by simp)]
    rw [if_pos hfb]
  · unfold check_block
    rw [if_neg (by simp)]
    by_cases hlt : (10000001 : ℤ) < first_block_mainnet
    · rw [if_pos hlt]
    · rw [if_neg hlt, if_pos (by norm_num)]

/-- Witness for C6 (amended) at the historical first mainnet block. -/
theorem check_block_spec_witness :
    check_block true 373601 0 = false
    ∧ check_block false 373601 0 = false
    ∧ check_block true 373601 10000001 = false
    ∧ check_block false 373601 10000001 = false :=
  check_block_spec 373601 (by norm_num)

/-- C7 counterexample: with a supplied `max_value` of `0` and value `1`,
the claim demands false (`1 ≤ 0` fails), but the code returns true
because `0` is falsy and the bound test is skipped. -/
theorem check_offset_zero_max_counterexample :
    check_offset 1 (some 0) = true ∧ ¬ ((1 : ℤ) ≤ 0) := ⟨rfl, by norm_num⟩

theorem check_count_eq_check_offset (v : ℤ) (mv : Option ℤ) :
    check_count v mv = check_offset v mv := rfl

/-- C7 (amended): `check_offset` and `check_count` accept a value exactly
when it is nonnegative and, when a nonzero `max_value` is supplied, at
most that bound; a `max_value` of `0` is falsy in Python and disables the
bound, leaving only the nonnegativity test; a count of zero is
accepted. -/
theorem check_offset_count_spec (v : ℤ) (mv : Option ℤ) :
    (∀ m, mv = some m → m ≠ 0 →
        ((check_offset v mv = true ↔ 0 ≤ v ∧ v ≤ m)
          ∧ (check_count v mv = true ↔ 0 ≤ v ∧ v ≤ m)))
    ∧ ((mv = none ∨ mv = some 0) →
        ((check_offset v mv = true ↔ 0 ≤ v)
          ∧ (check_count v mv = true ↔ 0 ≤ v)))
    ∧ check_count 0 none = true := by
  have hsome : ∀ m, mv = some m → m ≠ 0 →
      (check_offset v mv = true ↔ 0 ≤ v ∧ v ≤ m) := by
    rintro m rfl hm
    unfold check_offset
    by_cases hv : v < 0
    · rw [if_pos hv]
      constructor
      · intro hx; simp at hx
      · intro hx; exact absurd hv (by omega)
    · rw [if_neg hv]
      by_cases hgt : v > m
      · rw [if_pos (by simp [hm, hgt])]
        constructor
        · intro hx; simp at hx
        · intro hx; exact absurd hgt (by omega)
      · rw [if_neg (by simp [hm]; omega)]
        constructor
        · intro _; omega
        · intro _; rfl
  have hfalsy : (mv = none ∨ mv = some 0) →
      (check_offset v mv = true ↔ 0 ≤ v) := by
    have hbody : ∀ mv0 : Option ℤ,
        (match mv0 with
          | none => false
          | some m => decide (m ≠ 0) && decide (v > m)) = false →
        (check_offset v mv0 = true ↔ 0 ≤ v) := by
      intro mv0 hmz
      unfold check_offset
      by_cases hv : v < 0
      · rw [if_pos hv]
        constructor
        · intro hx; simp at hx
        · intro hx; exact absurd hv (by omega)
      · rw [if_neg hv, if_neg (by intro hx; rw [hmz] at hx; simp at hx)]
        constructor
        · intro _; omega
        · intro _; rfl
    rintro (rfl | rfl)
    · exact hbody none rfl
    · exact hbody (some 0) (by simp)
  refine ⟨?_, ?_, rfl⟩
  · intro m hmv hm
    refine ⟨hsome m hmv hm, ?_⟩
    rw [check_count_eq_check_offset]
    exact hsome m hmv hm
  · intro hmv
    refine ⟨hfalsy hmv, ?_⟩
    rw [check_count_eq_check_offset]
    exact hfalsy hmv

/-- Witness for C7 (amended) at value 5 against a supplied nonzero
bound 7. -/
theorem check_offset_count_spec_witness :
    (check_offset 5 (some 7) = true ↔ (0 : ℤ) ≤ 5 ∧ (5 : ℤ) ≤ 7)
    ∧ (check_count 5 (some 7) = true ↔ (0 : ℤ) ≤ 5 ∧ (5 : ℤ) ≤ 7) :=
  (check_offset_count_spec 5 (some 7)).1 7 rfl (by norm_num)

/-- C8: `get_public_key_hex_from_tx` scans the inputs in order, considers
only inputs whose script deserializes to exactly two elements, skips an
input whose public-key construction fails without aborting the scan,
returns the first candidate whose derived address equals the target, and
returns no value when no input matches. -/
theorem get_public_key_hex_from_tx_spec {σ ε π α : Type} [DecidableEq α]
    (env : TxEnv σ ε π α) (address : α) :
    (get_public_key_hex_from_tx env [] address = none)
    ∧ (∀ inp rest, (env.btc_script_deserialize inp).length ≠ 2 →
        get_public_key_hex_from_tx env (inp :: rest) address
          = get_public_key_hex_from_tx env rest address)
    ∧ (∀ inp rest sig pc, env.btc_script_deserialize inp = [sig, pc] →
        env.bitcoin_public_key pc = none →
        get_public_key_hex_from_tx env (inp :: rest) address
          = get_public_key_hex_from_tx env rest address)
    ∧ (∀ inp rest sig pc pk, env.btc_script_deserialize inp = [sig, pc] →
        env.bitcoin_public_key pc = some pk →
        env.pubkey_address pk = address →
        get_public_key_hex_from_tx env (inp :: rest) address = some pc)
    ∧ (∀ inp rest sig pc pk, env.btc_script_deserialize inp = [sig, pc] →
        env.bitcoin_public_key pc = some pk →
        env.pubkey_address pk ≠ address →
        get_public_key_hex_from_tx env (inp :: rest) address
          = get_public_key_hex_from_tx env rest address)
    ∧ (∀ inputs : List σ,
        (∀ inp ∈ inputs, ∀ sig pc,
          env.btc_script_deserialize inp = [sig, pc] →
          ∀ pk, env.bitcoin_public_key pc = some pk →
          env.pubkey_address pk ≠ address) →
        get_public_key_hex_from_tx env inputs address = none) := by
  refine ⟨rfl, ?_, ?_, ?_, ?_, ?_⟩
  · intro inp rest hlen
    cases hd : env.btc_script_deserialize inp with
    | nil => simp [get_public_key_hex_from_tx, hd]
    | cons a t =>
      cases t with
      | nil => simp [get_public_key_hex_from_tx, hd]
      | cons b t2 =>
        cases t2 with
        | nil => exact absurd (by rw [hd]; rfl) hlen
        | cons c t3 => simp [get_public_key_hex_from_tx, hd]
  · intro inp rest sig pc hd hpk
    simp [get_public_key_hex_from_tx, hd, hpk]
  · intro inp rest sig pc pk hd hpk haddr
    simp [get_public_key_hex_from_tx, hd, hpk, haddr]
  · intro inp rest sig pc pk hd hpk haddr
    simp [get_public_key_hex_from_tx, hd, hpk, if_pos (Ne.symm haddr)]
  · intro inputs
    induction inputs with
    | nil => intro _; rfl
    | cons inp rest ih =>
      intro hall
      have hrest := ih (fun i hi => hall i (List.mem_cons_of_mem inp hi))
      cases hd : env.btc_script_deserialize inp with
      | nil => simp [get_public_key_hex_from_tx, hd, hrest]
      | cons a t =>
        cases t with
        | nil => simp [get_public_key_hex_from_tx, hd, hrest]
        | cons b t2 =>
          cases t2 with
          | cons c t3 => simp [get_public_key_hex_from_tx, hd, hrest]
          | nil =>
            cases hpk : env.bitcoin_public_key b with
            | none => simp [get_public_key_hex_from_tx, hd, hpk, hrest]
            | some pk =>
              have hne := hall inp (List.mem_cons_self inp rest) a b hd pk hpk
              simp [get_public_key_hex_from_tx, hd, hpk,
                if_pos (Ne.symm hne), hrest]

/-- Witness for C8 over the concrete environment: input 3 is skipped as
a one-element script and input 7 supplies the matching key 5. -/
theorem get_public_key_hex_from_tx_spec_witness :
    get_public_key_hex_from_tx wTxEnv [3, 7] 6 = some 5 := by
  have h := get_public_key_hex_from_tx_spec wTxEnv 6
  rw [h.2.1 3 [7] (by decide)]
  exact h.2.2.2.1 7 [] 0 5 5 (by decide) (by decide) (by decide)

end Blockstack
